import Mathlib

/-!
Verification of the preprocessing pipeline in `preprocess.py` of the
RNN-TuneSmith repository: duration filtering, key-normalizing transposition,
fixed-time-step encoding, corpus assembly, vocabulary construction and
sliding-window sequence generation.

Scores are embedded as lists of note/rest events with rational quarter-length
durations; Python strings as Lean strings (lists of characters); Python `int()`
truncation and `range` clamping are modelled explicitly.
-/

namespace TuneSmith

/-- A note/rest event of a flattened music21 score: `pitch = some m` is a note
with MIDI number `m`, `pitch = none` is a rest; `duration` is the event's
quarter-length. -/
structure Event where
  pitch : Option Int
  duration : ℚ
deriving DecidableEq

/-- A flattened score: the ordered list of its note/rest events. -/
abbrev Score := List Event

/-- The `ACCEPTABLE_DURATIONS` constant of `preprocess.py` (lines 20-29). -/
def ACCEPTABLE_DURATIONS : List ℚ := [1/4, 1/2, 3/4, 1, 3/2, 2, 3, 4]

/-- music21 `Stream.notes`: only the pitched events; rests are not included
(the source comment on line 55 claims "notes and rests", but the music21
`notes` property excludes `Rest` objects). -/
def m21Notes (song : Score) : List Event :=
  song.filter (fun e => e.pitch.isSome)

/-- music21 `Stream.notesAndRests`: all note and rest events. -/
def m21NotesAndRests (song : Score) : Score := song

/-- The function `has_acceptable_note_durations` of `preprocess.py`
(lines 48-58): iterate over `song.flatten().notes` and return `False` on the
first duration outside `acceptable_durations`, else `True`. -/
def has_acceptable_note_durations (song : Score) (acceptable_durations : List ℚ) : Bool :=
  (m21Notes song).all (fun e => decide (e.duration ∈ acceptable_durations))

/-- Python `int()` applied to a rational: truncation toward zero. -/
def pyInt (q : ℚ) : ℤ := if q < 0 then ⌈q⌉ else ⌊q⌋

/-- A token of the time-series encoding: a MIDI pitch number, the rest symbol
(Python string `"r"`), or the hold symbol (Python string `"_"`). -/
inductive Tok where
  | pitch : Int → Tok
  | rest : Tok
  | hold : Tok
deriving DecidableEq

/-- The string a token contributes to `" ".join(map(str, encoded_song))`. -/
def Tok.str : Tok → String
  | Tok.pitch m => toString m
  | Tok.rest => "r"
  | Tok.hold => "_"

/-- The `encoding_symbol` variable of `encode_song`: the MIDI number for a
note, `"r"` for a rest (lines 98-103). -/
def encodingSymbol (e : Event) : Tok :=
  match e.pitch with
  | some m => Tok.pitch m
  | none => Tok.rest

/-- Line 106: `step_count = int(event.duration.quarterLength / time_step)`.
Python `range` of a negative int is empty, hence the clamp `Int.toNat`. -/
def stepCount (e : Event) (time_step : ℚ) : ℕ :=
  (pyInt (e.duration / time_step)).toNat

/-- Lines 107-111: the tokens one event contributes — its symbol at step 0,
the hold symbol at every later step. -/
def eventTokens (e : Event) (time_step : ℚ) : List Tok :=
  (List.range (stepCount e time_step)).map
    (fun step => if step = 0 then encodingSymbol e else Tok.hold)

/-- The function `encode_song` of `preprocess.py` (lines 88-115), up to the
final `" ".join`: the token list produced by iterating over
`song.flatten().notesAndRests`. -/
def encode_song (song : Score) (time_step : ℚ) : List Tok :=
  ((m21NotesAndRests song).map (fun e => eventTokens e time_step)).flatten

/-- The string `encode_song` actually returns: the tokens joined by single
spaces (line 113). -/
def encode_song_str (song : Score) (time_step : ℚ) : String :=
  String.intercalate " " ((encode_song song time_step).map Tok.str)

/-- The windowing core of `generate_training_sequences` (lines 206-227):
`inputs[i] = int_songs[i:i+W]` and `targets[i] = int_songs[i+W]` for `i` in
`range(len(int_songs) - W)`; ℕ subtraction models the empty `range` a
non-positive Python difference yields.  The one-hot encoding step delegates to
the external `keras.utils.to_categorical` collaborator and is not modelled. -/
def generate_training_sequences (int_songs : List ℕ) (sequence_length : ℕ) :
    List (List ℕ) × List ℕ :=
  ((List.range (int_songs.length - sequence_length)).map
      (fun i => (int_songs.drop i).take sequence_length),
   (List.range (int_songs.length - sequence_length)).map
      (fun i => int_songs.getD (i + sequence_length) 0))

/-- Split a character list at every whitespace character, keeping the possibly
empty chunks between consecutive separators. -/
def wsplit : List Char → List (List Char)
  | [] => [[]]
  | c :: cs =>
    match c.isWhitespace, wsplit cs with
    | true, r => [] :: r
    | false, [] => [[c]]
    | false, t :: ts => (c :: t) :: ts

/-- The nonempty whitespace-separated chunks of a character list. -/
def tokensOf (l : List Char) : List (List Char) :=
  (wsplit l).filter (fun t => !t.isEmpty)

/-- Python `str.split()` with no argument, as used on lines 180 and 198:
whitespace-separated tokens, empty chunks discarded. -/
def pySplit (s : String) : List String :=
  (tokensOf s.data).map (fun t => String.mk t)

/-- The function `create_mapping` of `preprocess.py` (lines 176-185):
`vocabulary = list(set(songs.split()))` followed by
`{symbol: index for index, symbol in enumerate(vocabulary)}`.  Python's set
iteration order is arbitrary; `List.dedup` fixes one enumeration of the same
set of distinct tokens.  Writing the JSON file is not modelled. -/
def create_mapping (songs : String) : List (String × ℕ) :=
  let vocabulary := (pySplit songs).dedup
  vocabulary.enum.map (fun p => (p.2, p.1))

/-- The conversion loop of `convert_songs_to_int` (lines 200-201): Python dict
indexing `vocabulary_mapping[item]` raises `KeyError` on a missing token, so
the whole conversion is fallible. -/
def lookupTokens (vocabulary_mapping : List (String × ℕ)) : List String → Option (List ℕ)
  | [] => some []
  | t :: ts =>
    match List.lookup t vocabulary_mapping with
    | none => none
    | some v =>
      match lookupTokens vocabulary_mapping ts with
      | none => none
      | some vs => some (v :: vs)

/-- The function `convert_songs_to_int` of `preprocess.py` (lines 188-203),
with the persisted vocabulary file passed as an association list. -/
def convert_songs_to_int (vocabulary_mapping : List (String × ℕ)) (songs : String) :
    Option (List ℕ) :=
  lookupTokens vocabulary_mapping (pySplit songs)

/-- Python string repetition `s * n`. -/
def pyRepeat (s : String) (n : ℕ) : String :=
  String.mk (List.replicate n s.data).flatten

/-- Python slicing `s[:-1]`: drop the final character (identity on `""`). -/
def pyDropLast (s : String) : String :=
  String.mk s.data.dropLast

/-- The accumulation loop of `create_universal_dataset` (lines 151-155), with
the per-score files' contents passed as a list of strings:
`songs = songs + song + " " + new_song_delimiter` for each file, starting from
the empty string. -/
def assembleSongs (songList : List String) (new_song_delimiter : String) : String :=
  songList.foldl (fun songs song => songs ++ song ++ " " ++ new_song_delimiter) ""

/-- The function `create_universal_dataset` of `preprocess.py` (lines 140-161):
`new_song_delimiter = "/ " * sequence_length`, the accumulation loop, then
`songs = songs[:-1]`.  Directory traversal and file I/O are abstracted to the
list of file contents. -/
def create_universal_dataset (songList : List String) (sequence_length : ℕ) : String :=
  pyDropLast (assembleSongs songList (pyRepeat "/ " sequence_length))

/-- The corpus token stream with every non-delimiter token labelled by the
index of the score it came from; delimiter tokens carry the label `none`.
Score `m` contributes its tokens, then `sequence_length` delimiter tokens. -/
def labelledCorpus (sequence_length : ℕ) : ℕ → List (List String) → List (Option ℕ × String)
  | _, [] => []
  | m, T :: rest =>
    T.map (fun t => ((some m : Option ℕ), t))
      ++ List.replicate sequence_length ((none : Option ℕ), "/")
      ++ labelledCorpus sequence_length (m + 1) rest

/-- The mode of a music21 `Key`; `other` covers every mode that is neither
major nor minor. -/
inductive Mode where
  | major : Mode
  | minor : Mode
  | other : Mode
deriving DecidableEq

/-- A music21 `Key`: a tonic pitch, as a semitone number in which
`m21.pitch.Pitch("C")` is 60 and `m21.pitch.Pitch("A")` is 69, plus a mode. -/
structure MKey where
  tonic : ℤ
  mode : Mode
deriving DecidableEq

/-- A score together with the key information `transpose` consults: `metaKey`
is the element at index 4 of the first measure of the first part when that
element is a `m21.key.Key` (line 70), and `analyzedKey` is the output of the
external statistical estimator `song.analyze("key")` (line 74). -/
structure MScore where
  metaKey : Option MKey
  analyzedKey : MKey
  events : List Event
deriving DecidableEq

/-- Lines 68-74 of `transpose`: take the embedded key when one is present,
otherwise the estimated one. -/
def detectedKey (song : MScore) : MKey :=
  song.metaKey.getD song.analyzedKey

/-- music21 `interval.Interval(p, q)` between two pitches, as the semitone
shift from `p` to `q`. -/
def m21Interval (p q : ℤ) : ℤ := q - p

/-- The semitone number of `m21.pitch.Pitch("C")` (middle C, MIDI 60). -/
def pitchC : ℤ := 60

/-- The semitone number of `m21.pitch.Pitch("A")` (A4, MIDI 69). -/
def pitchA : ℤ := 69

/-- Shift a key by an interval. -/
def shiftKey (i : ℤ) (k : MKey) : MKey :=
  MKey.mk (k.tonic + i) k.mode

/-- Shift one event by an interval: pitches move, rests and durations are
untouched. -/
def shiftEvent (i : ℤ) (e : Event) : Event :=
  Event.mk (e.pitch.map (fun m => m + i)) e.duration

/-- music21 `Score.transpose(interval)` (line 83, an external collaborator):
a fresh score in which every pitch — and the key material — is shifted by the
same interval. -/
def m21Transpose (song : MScore) (i : ℤ) : MScore :=
  MScore.mk (song.metaKey.map (shiftKey i)) (shiftKey i song.analyzedKey)
    (song.events.map (shiftEvent i))

/-- The function `transpose` of `preprocess.py` (lines 61-85).  When the
detected mode is neither major nor minor, no `interval` variable is bound and
the Python call fails at line 83: modelled as `none`. -/
def transpose (song : MScore) : Option MScore :=
  let key := detectedKey song
  match key.mode with
  | Mode.major => some (m21Transpose song (m21Interval key.tonic pitchC))
  | Mode.minor => some (m21Transpose song (m21Interval key.tonic pitchA))
  | Mode.other => none

/-- Modelled from the spec: the repository's generation side (not under
`src/`) decodes a token sequence by reading each non-hold token as an onset
and each following run of hold tokens as its sustain.  `decodeAux` carries the
current onset symbol and its accumulated run length. -/
def decodeAux : List Tok → Tok → ℕ → List (Tok × ℕ)
  | [], cur, n => [(cur, n)]
  | t :: rest, cur, n =>
    if t = Tok.hold then decodeAux rest cur (n + 1)
    else (cur, n) :: decodeAux rest t 1

/-- Modelled from the spec: decode a token sequence into its list of
(onset symbol, run length) pairs. -/
def decode : List Tok → List (Tok × ℕ)
  | [] => []
  | t :: rest => decodeAux rest t 1

/-- The character list of the delimiter block `"/ " * n`. -/
def delimChars (n : ℕ) : List Char :=
  (List.replicate n ['/', ' ']).flatten

/-! Helper lemmas. -/

theorem pyInt_of_nonneg {q : ℚ} (h : 0 ≤ q) : pyInt q = ⌊q⌋ :=
  if_neg (not_lt.mpr h)

theorem length_eventTokens (e : Event) (ts : ℚ) :
    (eventTokens e ts).length = stepCount e ts := by
  simp [eventTokens]

theorem length_encode_song (S : Score) (ts : ℚ) :
    (encode_song S ts).length = (S.map (fun e => stepCount e ts)).sum := by
  simp only [encode_song, m21NotesAndRests, List.length_flatten, List.map_map]
  have h : (List.length ∘ fun e => eventTokens e ts) = fun e => stepCount e ts :=
    funext fun e => length_eventTokens e ts
  rw [h]

theorem sum_toNat_cast (l : List ℤ) (h : ∀ x ∈ l, 0 ≤ x) :
    ((l.map Int.toNat).sum : ℤ) = l.sum := by
  induction l with
  | nil => simp
  | cons x xs ih =>
    simp only [List.map_cons, List.sum_cons, Nat.cast_add]
    rw [Int.toNat_of_nonneg (h x (List.mem_cons_self x xs)),
      ih (fun y hy => h y (List.mem_cons_of_mem x hy))]

/-! Claim theorems. -/

/-- C1: the claim says `has_acceptable_note_durations(S, D)` is false iff at
least one of the score's note/rest events has a duration outside `D`.  The
source iterates `song.flatten().notes`, which excludes rests (although the
comment on line 55 says "notes and rests"), so a score whose single event is
a rest of the unacceptable duration 1/3 is accepted: the function returns
true.  The empty-score half of the claim does hold. -/
theorem has_acceptable_note_durations_skips_rests :
    has_acceptable_note_durations [Event.mk none (1/3)] ACCEPTABLE_DURATIONS = true
      ∧ (Event.mk (none : Option Int) (1/3)).duration = 1/3
      ∧ ((1 : ℚ)/3) ∉ ACCEPTABLE_DURATIONS
      ∧ has_acceptable_note_durations [] ACCEPTABLE_DURATIONS = true := by
  refine ⟨rfl, rfl, ?_, rfl⟩
  norm_num [ACCEPTABLE_DURATIONS]

/-- C2: `encode_song` is deterministic and length-preserving — the number of
tokens it produces is the sum over the score's events of
`int(duration / time_step)` (Python truncation), for any positive time step
and nonnegative durations. -/
theorem encode_song_deterministic_length (S : Score) (time_step : ℚ)
    (hts : 0 < time_step) (hdur : ∀ e ∈ S, 0 ≤ e.duration) :
    encode_song S time_step = encode_song S time_step ∧
      ((encode_song S time_step).length : ℤ)
        = (S.map (fun e => pyInt (e.duration / time_step))).sum := by
  refine ⟨rfl, ?_⟩
  rw [length_encode_song]
  have h1 : S.map (fun e => stepCount e time_step)
      = (S.map (fun e => pyInt (e.duration / time_step))).map Int.toNat := by
    rw [List.map_map]; rfl
  rw [h1, sum_toNat_cast]
  intro x hx
  obtain ⟨e, he, rfl⟩ := List.mem_map.mp hx
  rw [pyInt_of_nonneg (div_nonneg (hdur e he) hts.le)]
  exact Int.floor_nonneg.mpr (div_nonneg (hdur e he) hts.le)

/-- C2 witness: a two-event score at time step 1. -/
theorem encode_song_deterministic_length_witness :
    (0 : ℚ) < 1 ∧
      ((encode_song [Event.mk (some 60) 2, Event.mk none 1] 1).length : ℤ)
        = ([Event.mk (some 60) 2, Event.mk none 1].map
            (fun e => pyInt (e.duration / 1))).sum :=
  ⟨by norm_num,
   (encode_song_deterministic_length [Event.mk (some 60) 2, Event.mk none 1] 1
      (by norm_num)
      (by
        intro e he
        simp only [List.mem_cons, List.not_mem_nil, or_false] at he
        rcases he with rfl | rfl <;> norm_num)).2⟩

/-- C3: on a corpus of length `L` with window width `W`,
`generate_training_sequences` produces exactly `L - W` (context, target)
pairs, every context has length `W`, `target[i] = corpus[i + W]`, and when
`L ≤ W` it produces zero pairs rather than an error. -/
theorem generate_training_sequences_spec (int_songs : List ℕ) (W : ℕ) :
    (generate_training_sequences int_songs W).1.length = int_songs.length - W ∧
    (generate_training_sequences int_songs W).2.length = int_songs.length - W ∧
    (∀ c ∈ (generate_training_sequences int_songs W).1, c.length = W) ∧
    (∀ i, i < int_songs.length - W →
      (generate_training_sequences int_songs W).2.getD i 0
        = int_songs.getD (i + W) 0) ∧
    (int_songs.length ≤ W → generate_training_sequences int_songs W = ([], [])) := by
  refine ⟨by simp [generate_training_sequences],
    by simp [generate_training_sequences], ?_, ?_, ?_⟩
  · intro c hc
    simp only [generate_training_sequences, List.mem_map, List.mem_range] at hc
    obtain ⟨i, hi, rfl⟩ := hc
    simp only [List.length_take, List.length_drop]
    omega
  · intro i hi
    simp only [generate_training_sequences]
    rw [List.getD_eq_getElem?_getD, List.getElem?_map, List.getElem?_range hi]
    rfl
  · intro h
    have h0 : int_songs.length - W = 0 := by omega
    simp [generate_training_sequences, h0]

/-- C3 witness: corpus `[0, 1, 2]`, window width 2. -/
theorem generate_training_sequences_spec_witness :
    (generate_training_sequences [0, 1, 2] 2).1.length = 1 ∧
      (generate_training_sequences [0, 1, 2] 2).2.getD 0 0
        = [0, 1, 2].getD 2 0 :=
  ⟨(generate_training_sequences_spec [0, 1, 2] 2).1,
   (generate_training_sequences_spec [0, 1, 2] 2).2.2.2.1 0 (by decide)⟩

/-- C10: an event whose duration is strictly positive but strictly below the
time step contributes zero tokens — `int(duration/time_step)` is 0 — so the
event is silently dropped from the encoded sequence. -/
theorem encode_song_drops_subthreshold_event (S T : Score) (e : Event) (time_step : ℚ)
    (h0 : 0 < e.duration) (h1 : e.duration < time_step) :
    eventTokens e time_step = [] ∧
      encode_song (S ++ e :: T) time_step = encode_song (S ++ T) time_step := by
  have hts : 0 < time_step := lt_trans h0 h1
  have hq0 : 0 ≤ e.duration / time_step := div_nonneg h0.le hts.le
  have hq1 : e.duration / time_step < 1 := (div_lt_one hts).mpr h1
  have hstep : stepCount e time_step = 0 := by
    unfold stepCount
    rw [pyInt_of_nonneg hq0, Int.floor_eq_zero_iff.mpr (Set.mem_Ico.mpr ⟨hq0, hq1⟩)]
    rfl
  have htok : eventTokens e time_step = [] := by
    simp [eventTokens, hstep]
  exact ⟨htok, by simp [encode_song, m21NotesAndRests, htok]⟩

/-- C10 witness: a half-beat note at time step 1. -/
theorem encode_song_drops_subthreshold_event_witness :
    (0 : ℚ) < (Event.mk (some 60) (1/2)).duration ∧
      (Event.mk (some 60) (1/2)).duration < 1 ∧
      encode_song ([Event.mk none 1] ++ Event.mk (some 60) (1/2) :: [])  1
        = encode_song ([Event.mk none 1] ++ []) 1 :=
  ⟨by norm_num, by norm_num,
   (encode_song_drops_subthreshold_event [Event.mk none 1] [] (Event.mk (some 60) (1/2)) 1
      (by norm_num) (by norm_num)).2⟩

/-- C4: the mapping built by `create_mapping` is a bijection from the distinct
whitespace-separated tokens of the corpus onto the contiguous range `[0, N)`:
its keys are exactly the distinct tokens (each token of the corpus among
them, no key repeated) and its values, in order, are `0, 1, ..., N - 1`. -/
theorem create_mapping_bijection (songs : String) :
    (create_mapping songs).length = (pySplit songs).dedup.length ∧
    ((create_mapping songs).map Prod.fst).Nodup ∧
    (create_mapping songs).map Prod.snd = List.range (pySplit songs).dedup.length ∧
    (∀ t ∈ pySplit songs, t ∈ (create_mapping songs).map Prod.fst) := by
  have hfst : (create_mapping songs).map Prod.fst = (pySplit songs).dedup := by
    simp only [create_mapping, List.map_map]
    have h : (Prod.fst ∘ fun p : ℕ × String => (p.2, p.1)) = Prod.snd := rfl
    rw [h, List.enum_map_snd]
  have hsnd : (create_mapping songs).map Prod.snd
      = List.range (pySplit songs).dedup.length := by
    simp only [create_mapping, List.map_map]
    have h : (Prod.snd ∘ fun p : ℕ × String => (p.2, p.1)) = Prod.fst := rfl
    rw [h, List.enum_map_fst]
  refine ⟨?_, ?_, hsnd, ?_⟩
  · simp [create_mapping, List.enum_length]
  · rw [hfst]; exact List.nodup_dedup _
  · intro t ht
    rw [hfst]
    exact List.mem_dedup.mpr ht

/-- C4 witness: the corpus `"60 _ 60"` with two distinct tokens. -/
theorem create_mapping_bijection_witness :
    "60" ∈ pySplit "60 _ 60" ∧
      "60" ∈ (create_mapping "60 _ 60").map Prod.fst ∧
      (create_mapping "60 _ 60").map Prod.snd
        = List.range (pySplit "60 _ 60").dedup.length :=
  ⟨by decide, (create_mapping_bijection "60 _ 60").2.2.2 "60" (by decide),
   (create_mapping_bijection "60 _ 60").2.2.1⟩

theorem lookupTokens_isSome_iff (V : List (String × ℕ)) (ts : List String) :
    (lookupTokens V ts).isSome ↔ ∀ t ∈ ts, (List.lookup t V).isSome := by
  induction ts with
  | nil => simp [lookupTokens]
  | cons t ts ih =>
    cases hv : List.lookup t V with
    | none =>
      simp only [lookupTokens, hv, Option.isSome_none, Bool.false_eq_true, false_iff]
      intro h
      have h2 := h t (List.mem_cons_self t ts)
      rw [hv] at h2
      simp at h2
    | some v =>
      cases hr : lookupTokens V ts with
      | none =>
        simp only [lookupTokens, hv, hr, Option.isSome_none, Bool.false_eq_true, false_iff]
        intro h
        have h2 : ∀ t2 ∈ ts, (List.lookup t2 V).isSome :=
          fun t2 ht2 => h t2 (List.mem_cons_of_mem t ht2)
        rw [← ih, hr] at h2
        simp at h2
      | some vs =>
        simp only [lookupTokens, hv, hr, Option.isSome_some, true_iff]
        intro t2 ht2
        rcases List.mem_cons.mp ht2 with rfl | ht3
        · rw [hv]; rfl
        · exact (ih.mp (by rw [hr]; rfl)) t2 ht3

theorem lookupTokens_eq_some (V : List (String × ℕ)) :
    ∀ (ts : List String) (ids : List ℕ), lookupTokens V ts = some ids →
      ids = ts.map (fun t => (List.lookup t V).getD 0)
  | [], ids, h => by
    simp only [lookupTokens, Option.some.injEq] at h
    simp [← h]
  | t :: ts, ids, h => by
    cases hv : List.lookup t V with
    | none =>
      rw [lookupTokens, hv] at h
      exact absurd h (by simp)
    | some v =>
      cases hr : lookupTokens V ts with
      | none =>
        rw [lookupTokens, hv, hr] at h
        exact absurd h (by simp)
      | some vs =>
        rw [lookupTokens, hv, hr] at h
        have hids : ids = v :: vs := (Option.some.injEq _ _).mp h.symm
        subst hids
        rw [List.map_cons, hv]
        exact congrArg (fun l => v :: l) (lookupTokens_eq_some V ts vs hr)

/-- C8: `convert_songs_to_int` succeeds exactly when every whitespace-separated
token of its input is a key of the vocabulary (a missing token is fatal), and
on success it returns the vocabulary id of each corpus token, in order. -/
theorem convert_songs_to_int_spec (vocabulary_mapping : List (String × ℕ)) (songs : String) :
    ((convert_songs_to_int vocabulary_mapping songs).isSome
        ↔ ∀ t ∈ pySplit songs, (List.lookup t vocabulary_mapping).isSome) ∧
    (∀ ids, convert_songs_to_int vocabulary_mapping songs = some ids →
      ids = (pySplit songs).map
        (fun t => (List.lookup t vocabulary_mapping).getD 0)) :=
  ⟨lookupTokens_isSome_iff vocabulary_mapping (pySplit songs),
   fun ids h => lookupTokens_eq_some vocabulary_mapping (pySplit songs) ids h⟩

/-- C8 witness: a fully covered corpus, and the returned id list. -/
theorem convert_songs_to_int_spec_witness :
    (convert_songs_to_int [("60", 0), ("_", 1)] "60 _").isSome ∧
      [0, 1] = (pySplit "60 _").map
        (fun t => (List.lookup t [("60", 0), ("_", 1)]).getD 0) :=
  ⟨(convert_songs_to_int_spec [("60", 0), ("_", 1)] "60 _").1.mpr (by decide),
   (convert_songs_to_int_spec [("60", 0), ("_", 1)] "60 _").2 [0, 1] (by decide)⟩

theorem encodingSymbol_ne_hold (e : Event) : encodingSymbol e ≠ Tok.hold := by
  cases h : e.pitch <;> simp [encodingSymbol, h]

theorem stepCount_of_mul (e : Event) (ts : ℚ) (k : ℕ) (hts : 0 < ts)
    (h : e.duration = (k : ℚ) * ts) : stepCount e ts = k := by
  rw [stepCount, h, mul_div_assoc, div_self (ne_of_gt hts), mul_one,
    pyInt_of_nonneg (by positivity), Int.floor_natCast]
  simp

theorem eventTokens_succ (e : Event) (ts : ℚ) (m : ℕ) (h : stepCount e ts = m + 1) :
    eventTokens e ts = encodingSymbol e :: List.replicate m Tok.hold := by
  rw [eventTokens, h, List.range_succ_eq_map, List.map_cons, List.map_map]
  simp only [List.cons.injEq]
  constructor
  · simp
  · refine List.eq_replicate_iff.mpr ⟨by simp, ?_⟩
    intro b hb
    obtain ⟨s, hs, rfl⟩ := List.mem_map.mp hb
    simp [Function.comp]

theorem decodeAux_replicate_hold (m : ℕ) :
    ∀ (rest : List Tok) (cur : Tok) (n : ℕ),
      decodeAux (List.replicate m Tok.hold ++ rest) cur n = decodeAux rest cur (n + m) := by
  induction m with
  | zero => intro rest cur n; simp
  | succ m ih =>
    intro rest cur n
    simp only [List.replicate_succ, List.cons_append, decodeAux, reduceIte]
    have h2 := ih rest cur (n + 1)
    have h3 : n + 1 + m = n + (m + 1) := by omega
    rw [h3] at h2
    exact h2

theorem decodeAux_encode (S : Score) (ts : ℚ) (hts : 0 < ts)
    (hS : ∀ e ∈ S, ∃ k : ℕ, 0 < k ∧ e.duration = (k : ℚ) * ts)
    (cur : Tok) (n : ℕ) :
    decodeAux (encode_song S ts) cur n = (cur, n) :: decode (encode_song S ts) := by
  cases S with
  | nil => simp [encode_song, m21NotesAndRests, decodeAux, decode]
  | cons e S2 =>
    obtain ⟨k, hk, hdur⟩ := hS e (List.mem_cons_self e S2)
    obtain ⟨m, rfl⟩ : ∃ m, k = m + 1 := ⟨k - 1, by omega⟩
    have hst := stepCount_of_mul e ts (m + 1) hts hdur
    have henc : encode_song (e :: S2) ts
        = encodingSymbol e :: (List.replicate m Tok.hold ++ encode_song S2 ts) := by
      simp [encode_song, m21NotesAndRests, eventTokens_succ e ts m hst]
    rw [henc]
    simp only [decodeAux, decode, if_neg (encodingSymbol_ne_hold e)]

/-- C7: for a score whose durations are exact positive integer multiples of
the time step, decoding the token sequence produced by `encode_song` — each
non-hold token an onset, each following run of hold tokens its sustain —
recovers exactly the ordered list of (pitch-or-rest symbol, duration)
events, the duration of a run of length `n` being `n * time_step`. -/
theorem encode_decode_roundtrip (time_step : ℚ) (hts : 0 < time_step) :
    ∀ S : Score,
      (∀ e ∈ S, ∃ k : ℕ, 0 < k ∧ e.duration = (k : ℚ) * time_step) →
      (decode (encode_song S time_step)).map (fun p => (p.1, (p.2 : ℚ) * time_step))
        = S.map (fun e => (encodingSymbol e, e.duration))
  | [], _ => by simp [encode_song, m21NotesAndRests, decode]
  | e :: S2, hS => by
    obtain ⟨k, hk, hdur⟩ := hS e (List.mem_cons_self e S2)
    obtain ⟨m, rfl⟩ : ∃ m, k = m + 1 := ⟨k - 1, by omega⟩
    have hS2 : ∀ x ∈ S2, ∃ k : ℕ, 0 < k ∧ x.duration = (k : ℚ) * time_step :=
      fun x hx => hS x (List.mem_cons_of_mem e hx)
    have hst := stepCount_of_mul e time_step (m + 1) hts hdur
    have henc : encode_song (e :: S2) time_step
        = encodingSymbol e :: (List.replicate m Tok.hold ++ encode_song S2 time_step) := by
      simp [encode_song, m21NotesAndRests, eventTokens_succ e time_step m hst]
    rw [henc]
    simp only [decode]
    rw [decodeAux_replicate_hold m (encode_song S2 time_step) (encodingSymbol e) 1,
      decodeAux_encode S2 time_step hts hS2, List.map_cons, List.map_cons]
    rw [encode_decode_roundtrip time_step hts S2 hS2]
    have hd : ((1 : ℚ) + (m : ℚ)) * time_step = e.duration := by
      rw [hdur]; push_cast; ring
    simp [hd]

/-- C7 witness: a quarter-note C and a half-beat rest at time step 1/2. -/
theorem encode_decode_roundtrip_witness :
    (0 : ℚ) < 1/2 ∧
      (decode (encode_song [Event.mk (some 60) 1, Event.mk none (1/2)] (1/2))).map
          (fun p => (p.1, (p.2 : ℚ) * (1/2)))
        = [Event.mk (some 60) 1, Event.mk none (1/2)].map
            (fun e => (encodingSymbol e, e.duration)) :=
  ⟨by norm_num,
   encode_decode_roundtrip (1/2) (by norm_num)
     [Event.mk (some 60) 1, Event.mk none (1/2)]
     (by
       intro e he
       simp only [List.mem_cons, List.not_mem_nil, or_false] at he
       rcases he with rfl | rfl
       · exact ⟨2, by norm_num⟩
       · exact ⟨1, by norm_num⟩)⟩

theorem detectedKey_transpose (song : MScore) (i : ℤ) :
    detectedKey (m21Transpose song i) = shiftKey i (detectedKey song) := by
  cases h : song.metaKey <;> simp [detectedKey, m21Transpose, h]

/-- C9: when the detected key's mode is major or minor, `transpose` returns a
new score — a uniform shift of the original by the interval from the detected
tonic to C (major) or A (minor) — whose detected tonic is exactly C,
respectively A; every pitched event is shifted by that same interval, while
rests and durations are untouched. -/
theorem transpose_normalizes (song : MScore) (i : ℤ)
    (hmode : (detectedKey song).mode = Mode.major ∨ (detectedKey song).mode = Mode.minor)
    (hi : i = m21Interval (detectedKey song).tonic
        (if (detectedKey song).mode = Mode.major then pitchC else pitchA)) :
    transpose song = some (m21Transpose song i) ∧
      (detectedKey (m21Transpose song i)).tonic
        = (if (detectedKey song).mode = Mode.major then pitchC else pitchA) ∧
      (detectedKey (m21Transpose song i)).mode = (detectedKey song).mode ∧
      (m21Transpose song i).events = song.events.map (shiftEvent i) ∧
      (m21Transpose song i).events.map Event.duration
        = song.events.map Event.duration ∧
      (m21Transpose song i).events.map (fun e => e.pitch.isNone)
        = song.events.map (fun e => e.pitch.isNone) := by
  have hkey := detectedKey_transpose song i
  have hdur : (m21Transpose song i).events.map Event.duration
      = song.events.map Event.duration := by
    simp only [m21Transpose, List.map_map]
    apply List.map_congr_left
    intro e _
    rfl
  have hrest : (m21Transpose song i).events.map (fun e => e.pitch.isNone)
      = song.events.map (fun e => e.pitch.isNone) := by
    simp only [m21Transpose, List.map_map]
    apply List.map_congr_left
    intro e _
    cases h : e.pitch <;> simp [shiftEvent, Function.comp, h]
  rcases hmode with hmaj | hmin
  · rw [if_pos hmaj] at hi
    refine ⟨?_, ?_, ?_, rfl, hdur, hrest⟩
    · simp only [transpose, hmaj, hi]
    · rw [hkey, hi]
      simp only [shiftKey, m21Interval, if_pos hmaj]
      ring
    · rw [hkey]
      simp [shiftKey, hmaj]
  · have hnm : (detectedKey song).mode ≠ Mode.major := by
      rw [hmin]
      intro h
      cases h
    rw [if_neg hnm] at hi
    refine ⟨?_, ?_, ?_, rfl, hdur, hrest⟩
    · simp only [transpose, hmin, hi]
    · rw [hkey, hi]
      simp only [shiftKey, m21Interval, if_neg hnm]
      ring
    · rw [hkey]
      simp [shiftKey, hmin]

/-- C9 witness: a D-major score (embedded key metadata) with one note. -/
theorem transpose_normalizes_witness :
    transpose (MScore.mk (some (MKey.mk 62 Mode.major)) (MKey.mk 0 Mode.other)
        [Event.mk (some 64) 1])
      = some (m21Transpose (MScore.mk (some (MKey.mk 62 Mode.major)) (MKey.mk 0 Mode.other)
          [Event.mk (some 64) 1]) (-2)) ∧
    (detectedKey (m21Transpose (MScore.mk (some (MKey.mk 62 Mode.major)) (MKey.mk 0 Mode.other)
          [Event.mk (some 64) 1]) (-2))).tonic
      = (if (detectedKey (MScore.mk (some (MKey.mk 62 Mode.major)) (MKey.mk 0 Mode.other)
            [Event.mk (some 64) 1])).mode = Mode.major then pitchC else pitchA) :=
  (fun h => ⟨h.1, h.2.1⟩)
    (transpose_normalizes
      (MScore.mk (some (MKey.mk 62 Mode.major)) (MKey.mk 0 Mode.other)
        [Event.mk (some 64) 1])
      (-2) (Or.inl (by decide)) (by decide))

theorem wsplit_ne_nil : ∀ l : List Char, wsplit l ≠ []
  | [] => by simp [wsplit]
  | c :: cs => by
    cases hc : c.isWhitespace with
    | true => simp [wsplit, hc]
    | false =>
      cases hw : wsplit cs with
      | nil => simp [wsplit, hc, hw]
      | cons t ts => simp [wsplit, hc, hw]

theorem wsplit_append_ws : ∀ (a : List Char) (c : Char), c.isWhitespace = true →
    ∀ b : List Char, wsplit (a ++ c :: b) = wsplit a ++ wsplit b
  | [], c, hc, b => by simp [wsplit, hc]
  | d :: a2, c, hc, b => by
    cases hd : d.isWhitespace with
    | true =>
      have ih := wsplit_append_ws a2 c hc b
      simp only [List.cons_append, wsplit, hd]
      exact congrArg (fun r => [] :: r) ih
    | false =>
      have ih := wsplit_append_ws a2 c hc b
      obtain ⟨t, ts, hw⟩ := List.exists_cons_of_ne_nil (wsplit_ne_nil a2)
      simp only [List.cons_append, wsplit, hd, hw]
      have h2 : wsplit (a2.append (c :: b)) = (t :: ts) ++ wsplit b := by
        rw [show a2.append (c :: b) = a2 ++ c :: b from rfl, ih, hw]
      rw [h2, List.cons_append]

theorem tokensOf_append_ws (a : List Char) (c : Char) (hc : c.isWhitespace = true)
    (b : List Char) : tokensOf (a ++ c :: b) = tokensOf a ++ tokensOf b := by
  rw [tokensOf, tokensOf, tokensOf, wsplit_append_ws a c hc b, List.filter_append]

theorem delimChars_succ (n : ℕ) : delimChars (n + 1) = '/' :: ' ' :: delimChars n := by
  rw [delimChars, List.replicate_succ, List.flatten_cons]
  rfl

theorem delimChars_succ_right (n : ℕ) :
    delimChars (n + 1) = delimChars n ++ ['/', ' '] := by
  rw [delimChars, List.replicate_succ', List.flatten_append]
  rfl

theorem delimChars_succ_ne_nil (n : ℕ) : delimChars (n + 1) ≠ [] := by
  rw [delimChars_succ]
  simp

theorem tokensOf_delim_prefix : ∀ (n : ℕ) (Z : List Char),
    tokensOf (delimChars n ++ Z) = List.replicate n ['/'] ++ tokensOf Z
  | 0, Z => by simp [delimChars]
  | n + 1, Z => by
    rw [delimChars_succ]
    have h : ('/' :: ' ' :: delimChars n) ++ Z = ['/'] ++ ' ' :: (delimChars n ++ Z) := by
      simp
    rw [h, tokensOf_append_ws ['/'] ' ' (by decide) (delimChars n ++ Z),
      tokensOf_delim_prefix n Z]
    have h2 : tokensOf ['/'] = [['/']] := by decide
    rw [h2, List.replicate_succ]
    simp

theorem tokensOf_delim_dropLast (n : ℕ) :
    tokensOf ((delimChars n).dropLast) = List.replicate n ['/'] := by
  cases n with
  | zero => decide
  | succ m =>
    rw [delimChars_succ_right, List.dropLast_append_cons]
    have h : (['/', ' '] : List Char).dropLast = ['/'] := by decide
    rw [h, tokensOf_delim_prefix m ['/']]
    have h2 : tokensOf ['/'] = [['/']] := by decide
    rw [h2, ← List.replicate_succ']

theorem delimChars_getLast (n : ℕ) : (delimChars (n + 1)).getLast? = some ' ' := by
  rw [delimChars_succ_right, List.getLast?_append]
  have h : (['/', ' '] : List Char).getLast? = some ' ' := by decide
  rw [h]
  rfl

theorem blocks_getLast (n : ℕ) :
    ∀ songList : List String, songList ≠ [] →
      ((songList.map (fun s => s.data ++ ' ' :: delimChars n)).flatten).getLast? = some ' '
  | [], h => absurd rfl h
  | [s], _ => by
    rw [List.map_cons, List.map_nil, List.flatten_cons, List.flatten_nil, List.append_nil,
      List.getLast?_append]
    cases n with
    | zero =>
      have h : ((' ' : Char) :: delimChars 0).getLast? = some ' ' := by decide
      rw [h]
      rfl
    | succ m =>
      obtain ⟨x, X2, hX⟩ := List.exists_cons_of_ne_nil (delimChars_succ_ne_nil m)
      rw [hX, List.getLast?_cons_cons, ← hX, delimChars_getLast m]
      rfl
  | s :: s2 :: rest, _ => by
    have hrec := blocks_getLast n (s2 :: rest) (by simp)
    rw [List.map_cons, List.flatten_cons, List.getLast?_append, hrec]
    rfl

theorem tokensOf_blocks_dropLast (n : ℕ) :
    ∀ songList : List String, songList ≠ [] →
      tokensOf (((songList.map (fun s => s.data ++ ' ' :: delimChars n)).flatten).dropLast)
        = (songList.map (fun s => tokensOf s.data ++ List.replicate n (['/'] : List Char))).flatten
  | [], h => absurd rfl h
  | [s], _ => by
    rw [List.map_cons, List.map_nil, List.flatten_cons, List.flatten_nil, List.append_nil,
      List.map_cons, List.map_nil, List.flatten_cons, List.flatten_nil, List.append_nil,
      List.dropLast_append_cons]
    cases n with
    | zero =>
      have h : ((' ' : Char) :: delimChars 0).dropLast = [] := by decide
      rw [h, List.append_nil]
      simp
    | succ m =>
      obtain ⟨x, X2, hX⟩ := List.exists_cons_of_ne_nil (delimChars_succ_ne_nil m)
      rw [hX]
      have h2 : ((' ' : Char) :: x :: X2).dropLast = ' ' :: (x :: X2).dropLast := rfl
      rw [h2, ← hX, tokensOf_append_ws s.data ' ' (by decide),
        tokensOf_delim_dropLast (m + 1)]
  | s :: s2 :: rest, _ => by
    have hne : ((s2 :: rest).map (fun x => x.data ++ ' ' :: delimChars n)).flatten ≠ [] := by
      rw [List.map_cons, List.flatten_cons]
      simp
    obtain ⟨f, F2, hF⟩ := List.exists_cons_of_ne_nil hne
    rw [List.map_cons, List.flatten_cons, hF, List.dropLast_append_cons, ← hF,
      List.append_assoc, List.cons_append,
      tokensOf_append_ws s.data ' ' (by decide), tokensOf_delim_prefix n,
      tokensOf_blocks_dropLast n (s2 :: rest) (by simp)]
    simp [List.append_assoc]

theorem foldl_assemble_data (delim : String) :
    ∀ (songList : List String) (acc : String),
      (songList.foldl (fun songs song => songs ++ song ++ " " ++ delim) acc).data
        = acc.data ++ (songList.map (fun s => s.data ++ ' ' :: delim.data)).flatten
  | [], acc => by simp
  | s :: rest, acc => by
    rw [List.foldl_cons, foldl_assemble_data delim rest (acc ++ s ++ " " ++ delim),
      List.map_cons, List.flatten_cons]
    simp only [String.data_append]
    simp [List.append_assoc]

theorem assembleSongs_data (songList : List String) (delim : String) :
    (assembleSongs songList delim).data
      = (songList.map (fun s => s.data ++ ' ' :: delim.data)).flatten := by
  rw [assembleSongs, foldl_assemble_data delim songList ""]
  rfl

theorem pyRepeat_delim_data (n : ℕ) : (pyRepeat "/ " n).data = delimChars n := rfl

theorem corpus_data (songList : List String) (n : ℕ) :
    (create_universal_dataset songList n).data
      = ((songList.map (fun s => s.data ++ ' ' :: delimChars n)).flatten).dropLast := by
  rw [create_universal_dataset]
  show (assembleSongs songList (pyRepeat "/ " n)).data.dropLast = _
  rw [assembleSongs_data, pyRepeat_delim_data]

theorem tokensOf_corpus (songList : List String) (n : ℕ) :
    tokensOf (create_universal_dataset songList n).data
      = (songList.map (fun s => tokensOf s.data ++ List.replicate n (['/'] : List Char))).flatten := by
  rw [corpus_data]
  cases songList with
  | nil => simp [tokensOf, wsplit]
  | cons s rest => rw [tokensOf_blocks_dropLast n (s :: rest) (by simp)]

theorem pySplit_corpus (songList : List String) (n : ℕ) :
    pySplit (create_universal_dataset songList n)
      = (songList.map (fun s => pySplit s ++ List.replicate n "/")).flatten := by
  rw [pySplit, tokensOf_corpus, List.map_flatten, List.map_map]
  refine congrArg List.flatten (List.map_congr_left ?_)
  intro s _
  show (tokensOf s.data ++ List.replicate n ['/']).map (fun t => String.mk t) = _
  rw [List.map_append, List.map_replicate]
  rfl

theorem count_slash_blocks (n : ℕ) :
    ∀ songList : List String, (∀ s ∈ songList, "/" ∉ pySplit s) →
      ((songList.map (fun s => pySplit s ++ List.replicate n "/")).flatten).count "/"
        = n * songList.length
  | [], _ => by simp
  | s :: rest, h => by
    rw [List.map_cons, List.flatten_cons, List.count_append, List.count_append,
      List.count_replicate_self,
      List.count_eq_zero.mpr (h s (List.mem_cons_self s rest)),
      count_slash_blocks n rest (fun x hx => h x (List.mem_cons_of_mem s hx)),
      List.length_cons]
    ring

/-- C5: in the corpus built by `create_universal_dataset`, each score's
content is followed by a single space and `sequence_length` repetitions of the
one-character delimiter token each followed by a space; exactly the final
trailing space character is removed at the very end (the accumulated string
ends in a space, and the result is that string minus its last character); and
the number of delimiter tokens equals `sequence_length` times the number of
scores. -/
theorem create_universal_dataset_spec (songList : List String) (sequence_length : ℕ)
    (hns : ∀ s ∈ songList, "/" ∉ pySplit s) :
    (assembleSongs songList (pyRepeat "/ " sequence_length)).data
        = (songList.map
            (fun s => s.data ++ ' ' :: (pyRepeat "/ " sequence_length).data)).flatten ∧
    (create_universal_dataset songList sequence_length).data
        = (assembleSongs songList (pyRepeat "/ " sequence_length)).data.dropLast ∧
    (songList ≠ [] →
      (assembleSongs songList (pyRepeat "/ " sequence_length)).data.getLast? = some ' ') ∧
    (pySplit (create_universal_dataset songList sequence_length)).count "/"
        = sequence_length * songList.length := by
  refine ⟨assembleSongs_data songList (pyRepeat "/ " sequence_length), rfl, ?_, ?_⟩
  · intro hne
    rw [assembleSongs_data, pyRepeat_delim_data]
    exact blocks_getLast sequence_length songList hne
  · rw [pySplit_corpus]
    exact count_slash_blocks sequence_length songList hns

/-- C5 witness: two one-score files and a delimiter block of length 2. -/
theorem create_universal_dataset_spec_witness :
    (create_universal_dataset ["60 _", "r"] 2).data
        = (assembleSongs ["60 _", "r"] (pyRepeat "/ " 2)).data.dropLast ∧
    (assembleSongs ["60 _", "r"] (pyRepeat "/ " 2)).data.getLast? = some ' ' ∧
    (pySplit (create_universal_dataset ["60 _", "r"] 2)).count "/" = 2 * 2 :=
  (fun h => ⟨h.2.1, h.2.2.1 (by decide), h.2.2.2⟩)
    (create_universal_dataset_spec ["60 _", "r"] 2 (by decide))

theorem getElem?_append3 {α : Type} (A B C : List α) (p : ℕ) (x : α)
    (h : ((A ++ B) ++ C)[p]? = some x) :
    (p < A.length ∧ A[p]? = some x)
    ∨ (A.length ≤ p ∧ p < A.length + B.length ∧ B[p - A.length]? = some x)
    ∨ (A.length + B.length ≤ p ∧ C[p - (A.length + B.length)]? = some x) := by
  by_cases h1 : p < A.length
  · left
    refine ⟨h1, ?_⟩
    rw [List.getElem?_append_left (by rw [List.length_append]; omega),
      List.getElem?_append_left h1] at h
    exact h
  · by_cases h2 : p < A.length + B.length
    · right; left
      refine ⟨by omega, h2, ?_⟩
      rw [List.getElem?_append_left (by rw [List.length_append]; omega),
        List.getElem?_append_right (by omega)] at h
      exact h
    · right; right
      refine ⟨by omega, ?_⟩
      rw [List.getElem?_append_right (by rw [List.length_append]; omega),
        List.length_append] at h
      exact h

theorem labelledCorpus_label_ge (seq : ℕ) :
    ∀ (ts : List (List String)) (m p j : ℕ) (t : String),
      (labelledCorpus seq m ts)[p]? = some (some j, t) → m ≤ j
  | [], m, p, j, t => by
    intro h
    simp [labelledCorpus] at h
  | T :: rest, m, p, j, t => by
    intro h
    simp only [labelledCorpus] at h
    rcases getElem?_append3 _ _ _ p _ h with ⟨h1, hA⟩ | ⟨h1, h2, hB⟩ | ⟨h1, hC⟩
    · rw [List.getElem?_map] at hA
      obtain ⟨tk, _, hf⟩ := Option.map_eq_some'.mp hA
      have h3 : some m = some j := congrArg Prod.fst hf
      have h4 : m = j := by injection h3
      omega
    · rw [List.getElem?_replicate] at hB
      split at hB
      · have h3 := (Option.some.injEq _ _).mp hB
        have h4 : (none : Option ℕ) = some j := congrArg Prod.fst h3
        simp at h4
      · simp at hB
    · have h3 := labelledCorpus_label_ge seq rest (m + 1) _ j t hC
      omega

theorem labelledCorpus_gap (seq : ℕ) :
    ∀ (ts : List (List String)) (m p q j k : ℕ) (t u : String),
      (labelledCorpus seq m ts)[p]? = some (some j, t) →
      (labelledCorpus seq m ts)[q]? = some (some k, u) →
      j < k → p + seq < q
  | [], m, p, q, j, k, t, u => by
    intro hp _ _
    simp [labelledCorpus] at hp
  | T :: rest, m, p, q, j, k, t, u => by
    intro hp hq hjk
    simp only [labelledCorpus] at hp hq
    rcases getElem?_append3 _ _ _ p _ hp with ⟨hp1, hpA⟩ | ⟨hp1, hp2, hpB⟩ | ⟨hp1, hpC⟩
    · rw [List.getElem?_map] at hpA
      obtain ⟨tk, _, hf⟩ := Option.map_eq_some'.mp hpA
      have hjm : m = j := by
        have h3 : some m = some j := congrArg Prod.fst hf
        injection h3
      rcases getElem?_append3 _ _ _ q _ hq with ⟨hq1, hqA⟩ | ⟨hq1, hq2, hqB⟩ | ⟨hq1, hqC⟩
      · rw [List.getElem?_map] at hqA
        obtain ⟨tk2, _, hf2⟩ := Option.map_eq_some'.mp hqA
        have hkm : m = k := by
          have h3 : some m = some k := congrArg Prod.fst hf2
          injection h3
        omega
      · rw [List.getElem?_replicate] at hqB
        split at hqB
        · have h3 := (Option.some.injEq _ _).mp hqB
          have h4 : (none : Option ℕ) = some k := congrArg Prod.fst h3
          simp at h4
        · simp at hqB
      · rw [List.length_map, List.length_replicate] at hq1
        rw [List.length_map] at hp1
        omega
    · rw [List.getElem?_replicate] at hpB
      split at hpB
      · have h3 := (Option.some.injEq _ _).mp hpB
        have h4 : (none : Option ℕ) = some j := congrArg Prod.fst h3
        simp at h4
      · simp at hpB
    · have hjge := labelledCorpus_label_ge seq rest (m + 1) _ j t hpC
      rw [List.length_map, List.length_replicate] at hp1 hpC
      rcases getElem?_append3 _ _ _ q _ hq with ⟨hq1, hqA⟩ | ⟨hq1, hq2, hqB⟩ | ⟨hq1, hqC⟩
      · rw [List.getElem?_map] at hqA
        obtain ⟨tk2, _, hf2⟩ := Option.map_eq_some'.mp hqA
        have hkm : m = k := by
          have h3 : some m = some k := congrArg Prod.fst hf2
          injection h3
        omega
      · rw [List.getElem?_replicate] at hqB
        split at hqB
        · have h3 := (Option.some.injEq _ _).mp hqB
          have h4 : (none : Option ℕ) = some k := congrArg Prod.fst h3
          simp at h4
        · simp at hqB
      · rw [List.length_map, List.length_replicate] at hq1 hqC
        have hrec := labelledCorpus_gap seq rest (m + 1)
          (p - (T.length + seq)) (q - (T.length + seq)) j k t u hpC hqC hjk
        omega

theorem labelledCorpus_map_snd (seq : ℕ) :
    ∀ (m : ℕ) (ts : List (List String)),
      (labelledCorpus seq m ts).map Prod.snd
        = (ts.map (fun T => T ++ List.replicate seq "/")).flatten
  | _, [] => by simp [labelledCorpus]
  | m, T :: rest => by
    simp only [labelledCorpus, List.map_append, List.map_map, List.map_replicate,
      List.map_cons, List.flatten_cons]
    rw [labelledCorpus_map_snd seq (m + 1) rest]
    have h1 : (Prod.snd ∘ fun t : String => ((some m : Option ℕ), t)) = id := rfl
    rw [h1, List.map_id]

/-- C6: a contiguous token window of width `sequence_length` drawn from the
corpus built by `create_universal_dataset` never contains non-delimiter tokens
of two distinct scores: whenever two positions of such a window carry
score labels `j` and `k` in the labelled corpus (whose token projection is
exactly the assembled corpus's token list), `j = k`. -/
theorem corpus_window_single_score (songList : List String)
    (sequence_length i p q j k : ℕ) (t u : String)
    (hip : i ≤ p) (hpw : p < i + sequence_length)
    (hiq : i ≤ q) (hqw : q < i + sequence_length)
    (hp : (labelledCorpus sequence_length 0 (songList.map pySplit))[p]?
        = some (some j, t))
    (hq : (labelledCorpus sequence_length 0 (songList.map pySplit))[q]?
        = some (some k, u)) :
    (labelledCorpus sequence_length 0 (songList.map pySplit)).map Prod.snd
        = pySplit (create_universal_dataset songList sequence_length) ∧ j = k := by
  constructor
  · rw [labelledCorpus_map_snd, pySplit_corpus, List.map_map]
    rfl
  · rcases Nat.lt_trichotomy j k with hlt | heq | hgt
    · exfalso
      have hgap := labelledCorpus_gap sequence_length (songList.map pySplit)
        0 p q j k t u hp hq hlt
      omega
    · exact heq
    · exfalso
      have hgap := labelledCorpus_gap sequence_length (songList.map pySplit)
        0 q p k j u t hq hp hgt
      omega

/-- C6 witness: two one-token scores, delimiter block and window width 1, the
window starting at the first token. -/
theorem corpus_window_single_score_witness :
    (labelledCorpus 1 0 (["60", "62"].map pySplit)).map Prod.snd
        = pySplit (create_universal_dataset ["60", "62"] 1) ∧ (0 : ℕ) = 0 :=
  corpus_window_single_score ["60", "62"] 1 0 0 0 0 0 "60" "60"
    (Nat.le_refl 0) (by decide) (Nat.le_refl 0) (by decide) (by decide) (by decide)

end TuneSmith
